import Mathlib

/-!
Verification of the multi-node dispatcher, node pool, submission and
resubmission engines of the pantos common blockchain library.

The Python source is shallowly embedded: Python `int` becomes `Int` (or
`Nat` where the code guarantees non-negativity), the `float` fee-increase
factor becomes `Rat`, fallible code returns `Option`/`Except`, and the
random draw of `random.randint` and the outcomes of node RPC calls are
explicit parameters.
-/

namespace PantosCommon

/-! ## NodeConnections.Wrapper (src/pantos/common/blockchains/base.py) -/

/-- State of `NodeConnections.Wrapper`: the wrapped objects, the list of
write-method names, and the flag computed in `__init__`. -/
structure NCWrapper (β : Type) where
  objects : List β
  transactionMethodNames : List String
  isTransactionFunction : Bool
deriving DecidableEq

/-- `NodeConnections.Wrapper.__init__`: the wrapper for attribute
`attrName` of a non-empty pool `first :: rest`.  For a write method the
code keeps only `getattr(objects[0], attr_name)`; otherwise it keeps the
attribute of every member.  `getattr` abstracts Python attribute access. -/
def wrapperInit {α β : Type} (getattr : α → String → β) (first : α)
    (rest : List α) (attrName : String)
    (transactionMethodNames : List String) : NCWrapper β :=
  if attrName ∈ transactionMethodNames then
    { objects := [getattr first attrName],
      transactionMethodNames := transactionMethodNames,
      isTransactionFunction := true }
  else
    { objects := (first :: rest).map (fun o => getattr o attrName),
      transactionMethodNames := transactionMethodNames,
      isTransactionFunction := false }

/-- Result of `NodeConnections.Wrapper.__call__`: either the raw result of
one member (write method) or a new proxy wrapping all called members. -/
inductive CallResult (β γ : Type) where
  | raw (result : γ)
  | proxy (objects : List γ) (transactionMethodNames : List String)
      (isTransactionFunction : Bool)
deriving DecidableEq

/-- `NodeConnections.Wrapper.__call__`: `call` applies one wrapped object
to the given arguments.  For a write method the code draws
`random.randint(0, len(objects) - 1)`; the draw is modelled by an
arbitrary natural `randomDraw` reduced modulo the list length, so the
reachable indices are exactly `0 .. len - 1`. -/
def wrapperCall {β γ : Type} [Inhabited β] (call : β → γ)
    (w : NCWrapper β) (randomDraw : ℕ) : CallResult β γ :=
  if w.isTransactionFunction then
    CallResult.raw (call (w.objects.getD (randomDraw % w.objects.length)
      default))
  else
    CallResult.proxy (w.objects.map call) w.transactionMethodNames
      w.isTransactionFunction

/-- `_TRANSACTION_METHOD_NAMES` of
src/pantos/common/blockchains/ethereum.py. -/
def ethereumTransactionMethodNames : List String :=
  ["send_transaction", "replace_transaction", "modify_transaction",
   "send_raw_transaction", "transact"]

/-- `NodeConnections.Wrapper.get`: the first result is compared with every
other result; on a mismatch the error details map the decimal string of
each positional index to that member's result (a Python dict in insertion
order, modelled as an association list). -/
def wrapperGet {β : Type} [DecidableEq β] (first : β) (rest : List β) :
    Except (List (String × β)) β :=
  if rest.all (fun other => first = other) then Except.ok first
  else Except.error
    ((List.enum (first :: rest)).map (fun p => (Nat.repr p.1, p.2)))

/-! ## Substring classification of send errors
(src/pantos/common/blockchains/ethereum.py) -/

/-- Whether the character list starts with the pattern `pat`. -/
def listBeginsWith : List Char → List Char → Bool
  | [], _ => true
  | _ :: _, [] => false
  | p :: ps, h :: hs => p = h && listBeginsWith ps hs

/-- Whether `pat` occurs contiguously inside the character list
(Python `pat in s`). -/
def listHasSub (pat : List Char) : List Char → Bool
  | [] => List.isEmpty pat
  | h :: t => listBeginsWith pat (h :: t) || listHasSub pat t

/-- Python `pat in message` on strings. -/
def strContains (message pat : String) : Bool :=
  listHasSub pat.toList message.toList

/-- `_NONCE_TOO_LOW` of src/pantos/common/blockchains/ethereum.py. -/
def nonceTooLowMessages : List String :=
  ["nonce too low", "invalid nonce", "ERR_INCORRECT_NONCE"]

/-- Outcome of `EthereumUtilities.__send_raw_transaction` error handling:
the re-raised `ValueError` is wrapped by `submit_transaction` into the
chain-generic utilities error. -/
inductive SendRawErrorKind where
  | transactionNonceTooLow
  | transactionUnderpriced
  | genericError
deriving DecidableEq

/-- The error classification of `EthereumUtilities.__send_raw_transaction`
as a function of the error message. -/
def classifySendRawError (message : String) : SendRawErrorKind :=
  if nonceTooLowMessages.any (fun pat => strContains message pat) then
    SendRawErrorKind.transactionNonceTooLow
  else if strContains message "transaction underpriced" then
    SendRawErrorKind.transactionUnderpriced
  else
    SendRawErrorKind.genericError

/-! ## Node pool construction
(`BlockchainUtilities.create_node_connections` and
`BlockchainUtilities.__create_valid_node_connection`) -/

/-- The first URL in the list for which `_create_single_node_connection`
succeeds; `live` abstracts that success (a URL is live or not during one
pool construction). -/
def findLiveUrl (live : String → Bool) : List String → Option String
  | [] => none
  | u :: rest => if live u then some u else findLiveUrl live rest

/-- `BlockchainUtilities.__create_valid_node_connection`: try the primary
URL, then each fallback currently in the scratch list in order; a consumed
fallback is removed (`list.remove`, i.e. first occurrence).  `none` models
the cannot-connect error for this slot. -/
def createValidNodeConnection (live : String → Bool)
    (blockchainNodeUrl : String) (fallbackBlockchainNodeUrls : List String) :
    Option (String × List String) :=
  if live blockchainNodeUrl then
    some (blockchainNodeUrl, fallbackBlockchainNodeUrls)
  else
    match findLiveUrl live fallbackBlockchainNodeUrls with
    | some u => some (u, fallbackBlockchainNodeUrls.erase u)
    | none => none

/-- `BlockchainUtilities.create_node_connections`: one connection per
primary URL, threading the scratch fallback list; an error carries the
URLs attempted for the failing slot (the code reports their domains). -/
def createNodeConnections (live : String → Bool) :
    List String → List String →
    Except (List String) (List String × List String)
  | [], fallbackNodes => Except.ok ([], fallbackNodes)
  | p :: ps, fallbackNodes =>
    match createValidNodeConnection live p fallbackNodes with
    | none => Except.error (p :: fallbackNodes)
    | some (u, fallbackNodes1) =>
      match createNodeConnections live ps fallbackNodes1 with
      | Except.error e => Except.error e
      | Except.ok (pool, fallbackNodesEnd) =>
        Except.ok (u :: pool, fallbackNodesEnd)

/-! ## BlockchainUtilities.__init__ -/

/-- The attributes stored by a successful `BlockchainUtilities.__init__`
(no default private key given, so the derived key and address are None). -/
structure BlockchainUtilitiesState where
  averageBlockTime : ℤ
  requiredTransactionConfirmations : ℤ
  transactionNetworkId : Option ℤ
  blockchainNodeUrls : List String
  fallbackBlockchainNodeUrls : List String
  defaultPrivateKey : Option String
  defaultAddress : Option String
  celeryTasksEnabled : Bool
deriving DecidableEq

/-- The validation errors of `BlockchainUtilities.__init__`, in source
order. -/
inductive UtilitiesInitError where
  | averageBlockTimeNotPositive
  | requiredTransactionConfirmationsNegative
  | transactionNetworkIdNotPositive
  | noBlockchainNodeUrls
deriving DecidableEq

/-- `BlockchainUtilities.__init__` with `default_private_key = None`. -/
def blockchainUtilitiesInit (blockchainNodeUrls : List String)
    (fallbackBlockchainNodeUrls : List String) (averageBlockTime : ℤ)
    (requiredTransactionConfirmations : ℤ)
    (transactionNetworkId : Option ℤ) (celeryTasksEnabled : Bool) :
    Except UtilitiesInitError BlockchainUtilitiesState :=
  if averageBlockTime ≤ 0 then
    Except.error UtilitiesInitError.averageBlockTimeNotPositive
  else if requiredTransactionConfirmations < 0 then
    Except.error UtilitiesInitError.requiredTransactionConfirmationsNegative
  else if (match transactionNetworkId with
           | some i => decide (i ≤ 0)
           | none => false) then
    Except.error UtilitiesInitError.transactionNetworkIdNotPositive
  else if blockchainNodeUrls.isEmpty then
    Except.error UtilitiesInitError.noBlockchainNodeUrls
  else
    Except.ok
      { averageBlockTime := averageBlockTime,
        requiredTransactionConfirmations :=
          requiredTransactionConfirmations,
        transactionNetworkId := transactionNetworkId,
        blockchainNodeUrls := blockchainNodeUrls,
        fallbackBlockchainNodeUrls := fallbackBlockchainNodeUrls,
        defaultPrivateKey := none,
        defaultAddress := none,
        celeryTasksEnabled := celeryTasksEnabled }

/-! ## Submission engine fee assembly
(`EthereumUtilities.__check_transaction_submission_request` and
`EthereumUtilities.__create_transaction_parameters`, type-2 branch) -/

/-- The fee-relevant fields of
`BlockchainUtilities.TransactionSubmissionRequest` (the contract address,
ABI, selector and arguments do not influence the checked conditions or the
fee fields). -/
structure TransactionSubmissionRequest where
  contractAddress : String
  functionSelector : String
  gas : Option ℤ
  minAdaptableFeePerGas : ℤ
  maxTotalFeePerGas : Option ℤ
  amount : Option ℤ
  nonce : ℤ
deriving DecidableEq

/-- The validation errors of
`EthereumUtilities.__check_transaction_submission_request`, in source
order. -/
inductive SubmissionCheckError where
  | gasTooLow
  | minAdaptableFeeNegative
  | maxTotalFeePerGasExceeded
  | amountNegative
  | nonceNegative
deriving DecidableEq

/-- `EthereumUtilities.__check_transaction_submission_request`: the first
violated condition, if any. -/
def checkTransactionSubmissionRequest
    (request : TransactionSubmissionRequest) :
    Option SubmissionCheckError :=
  if (match request.gas with
      | some g => decide (g < 21000)
      | none => false) then
    some SubmissionCheckError.gasTooLow
  else if request.minAdaptableFeePerGas < 0 then
    some SubmissionCheckError.minAdaptableFeeNegative
  else if (match request.maxTotalFeePerGas with
           | some m => decide (m < request.minAdaptableFeePerGas)
           | none => false) then
    some SubmissionCheckError.maxTotalFeePerGasExceeded
  else if (match request.amount with
           | some a => decide (a < 0)
           | none => false) then
    some SubmissionCheckError.amountNegative
  else if request.nonce < 0 then
    some SubmissionCheckError.nonceNegative
  else
    none

/-- The EIP-1559 fee fields put into the transaction parameters. -/
structure Eip1559FeeParameters where
  maxPriorityFeePerGas : ℤ
  maxFeePerGas : ℤ
deriving DecidableEq

/-- `EthereumUtilities.__create_transaction_parameters`, type-2 branch:
the pool's `baseFeePerGas` observations are a non-empty list
(`baseFeeFirst :: baseFeeRest`) reduced by `get_minimum_result`; returns
the fee parameters and the adaptable fee per gas. -/
def createTransactionParametersType2 (baseFeeFirst : ℤ)
    (baseFeeRest : List ℤ) (request : TransactionSubmissionRequest) :
    Eip1559FeeParameters × ℤ :=
  let baseFeePerGas := baseFeeRest.foldl min baseFeeFirst
  let maxPriorityFeePerGas := request.minAdaptableFeePerGas
  let uncappedMaxFeePerGas := 2 * baseFeePerGas + maxPriorityFeePerGas
  let maxFeePerGas :=
    match request.maxTotalFeePerGas with
    | some m => if m < uncappedMaxFeePerGas then m else uncappedMaxFeePerGas
    | none => uncappedMaxFeePerGas
  ({ maxPriorityFeePerGas := maxPriorityFeePerGas,
     maxFeePerGas := maxFeePerGas }, maxPriorityFeePerGas)

/-- The submission engine's fee path: the request checks of
`submit_transaction` followed by the type-2 parameter assembly. -/
def assembleEip1559Fees (baseFeeFirst : ℤ) (baseFeeRest : List ℤ)
    (request : TransactionSubmissionRequest) :
    Except SubmissionCheckError (Eip1559FeeParameters × ℤ) :=
  match checkTransactionSubmissionRequest request with
  | some e => Except.error e
  | none =>
    Except.ok (createTransactionParametersType2 baseFeeFirst baseFeeRest
      request)

/-! ## Resubmission engine
(`BlockchainUtilities.resubmit_transaction`) -/

/-- `BlockchainUtilities.TransactionSubmissionResponse`. -/
structure TransactionSubmissionResponse where
  transactionId : String
  adaptableFeePerGas : ℕ
deriving DecidableEq

/-- Outcome of one `submit_transaction` call as observed by
`resubmit_transaction`: a `TransactionUnderpricedError`, a response, or
any other error (propagated unchanged, identified by its message). -/
inductive SubmitOutcome where
  | underpriced
  | success (response : TransactionSubmissionResponse)
  | failure (message : String)
deriving DecidableEq

/-- The fee bump of one loop iteration:
`max(1, math.ceil(min_adaptable_fee_per_gas * adaptable_fee_increase_factor))`.
The Python float factor is modelled as a rational. -/
def bumpFee (factor : ℚ) (prev : ℕ) : ℕ :=
  max 1 (Int.ceil ((prev : ℚ) * factor)).toNat

/-- The sequence of minimum adaptable fees per gas across iterations,
starting from the request's initial value. -/
def feeSeq (factor : ℚ) (prev : ℕ) : ℕ → ℕ
  | 0 => prev
  | k + 1 => bumpFee factor (feeSeq factor prev k)

/-- Terminal outcome of the `resubmit_transaction` loop; `outOfFuel`
marks an unfinished run of the fuelled model. -/
inductive ResubmitOutcome where
  | response (r : TransactionSubmissionResponse)
  | maxTotalFeePerGasExceeded
  | submitFailure (message : String)
  | outOfFuel
deriving DecidableEq

/-- The ceiling test of one loop iteration: whether
`max_total_fee_per_gas` is set and exceeded by the new minimum adaptable
fee per gas. -/
def ceilingExceeded (maxTotalFeePerGas : Option ℕ) (newMin : ℕ) : Bool :=
  match maxTotalFeePerGas with
  | some c => decide (c < newMin)
  | none => false

/-- The `while response is None` loop of
`BlockchainUtilities.resubmit_transaction`, run with explicit fuel
(number of loop-body entries).  `submit` gives the outcome of the k-th
`submit_transaction` call; the returned list is the minimum adaptable fee
per gas of each submission actually attempted, in order. -/
def resubmitLoop (factor : ℚ) (maxTotalFeePerGas : Option ℕ)
    (submit : ℕ → SubmitOutcome) :
    ℕ → ℕ → ℕ → ResubmitOutcome × List ℕ
  | 0, _, _ => (ResubmitOutcome.outOfFuel, [])
  | fuel + 1, prev, callIndex =>
    if ceilingExceeded maxTotalFeePerGas (bumpFee factor prev) then
      (ResubmitOutcome.maxTotalFeePerGasExceeded, [])
    else
      match submit callIndex with
      | SubmitOutcome.underpriced =>
        ((resubmitLoop factor maxTotalFeePerGas submit fuel
            (bumpFee factor prev) (callIndex + 1)).1,
         bumpFee factor prev ::
           (resubmitLoop factor maxTotalFeePerGas submit fuel
             (bumpFee factor prev) (callIndex + 1)).2)
      | SubmitOutcome.success r =>
        (ResubmitOutcome.response r, [bumpFee factor prev])
      | SubmitOutcome.failure m =>
        (ResubmitOutcome.submitFailure m, [bumpFee factor prev])

/-! ## Contract ABI loading
(`BlockchainUtilities.load_contract_abi`) -/

/-- The `ContractAbi` enumeration of
src/pantos/common/blockchains/enums.py. -/
inductive ContractAbi where
  | standardToken
  | pantosToken
  | pantosHub
  | pantosForwarder
deriving DecidableEq

/-- A `semantic_version.Version` as used in the resource lookup path. -/
structure SemVersion where
  major : ℕ
  minor : ℕ
  patch : ℕ
deriving DecidableEq

/-- Lookup in the `__loaded_contract_abis` cache (a dict keyed by the
`ContractAbi` member alone). -/
def abiCacheLookup {Abi : Type} (kind : ContractAbi) :
    List (ContractAbi × Abi) → Option Abi
  | [] => none
  | (k, a) :: rest => if k = kind then some a else abiCacheLookup kind rest

/-- `BlockchainUtilities.load_contract_abi`: `resource` abstracts reading
and parsing the ABI file at the (kind file name, version directory)
resource path (`none` when the read or parse fails).  Returns the result,
the updated cache and the number of resource reads performed. -/
def loadContractAbi {Abi : Type}
    (resource : ContractAbi → SemVersion → Option Abi)
    (cache : List (ContractAbi × Abi)) (kind : ContractAbi)
    (version : SemVersion) :
    Except Unit Abi × List (ContractAbi × Abi) × ℕ :=
  match abiCacheLookup kind cache with
  | some abi => (Except.ok abi, cache, 0)
  | none =>
    match resource kind version with
    | some abi => (Except.ok abi, (kind, abi) :: cache, 1)
    | none => (Except.error (), cache, 1)

/-! ## Theorems -/

/-- C9: for every pool and call step whose attribute name is in the
transaction-method-name list, the wrapper retains only the first member's
bound method, and the write call returns the first member's raw result
for every random draw, so any two runs invoke the same connection: the
first one in pool order. -/
theorem writeRoutingDeterministic {α β γ : Type} [Inhabited β]
    (getattr : α → String → β) (call : β → γ) (first : α) (rest : List α)
    (attrName : String) (txNames : List String) (r₁ r₂ : ℕ)
    (h : attrName ∈ txNames) :
    (wrapperInit getattr first rest attrName txNames).objects =
      [getattr first attrName] ∧
    wrapperCall call (wrapperInit getattr first rest attrName txNames) r₁ =
      CallResult.raw (call (getattr first attrName)) ∧
    wrapperCall call (wrapperInit getattr first rest attrName txNames) r₁ =
      wrapperCall call (wrapperInit getattr first rest attrName txNames)
        r₂ := by
  simp [wrapperInit, wrapperCall, h, Nat.mod_one]

/-- C9 witness: a concrete three-member pool with a write method. -/
theorem writeRoutingDeterministic_witness :
    "send_transaction" ∈ ethereumTransactionMethodNames ∧
    wrapperCall (fun n => n + 100)
      (wrapperInit (fun (n : ℕ) _ => n) 7 [8, 9] "send_transaction"
        ethereumTransactionMethodNames) 3 =
      CallResult.raw 107 :=
  ⟨by decide,
   (writeRoutingDeterministic (fun (n : ℕ) _ => n) (fun n => n + 100) 7
     [8, 9] "send_transaction" ethereumTransactionMethodNames 3 0
     (by decide)).2.1⟩

/-- C1: the code evaluated at the failing input.  For a two-member pool
and the write method send_transaction, `Wrapper.__init__` keeps only the
first member's bound method, so `random.randint(0, len - 1)` draws from a
singleton list: both possible draw values invoke member 0 and member 1
can never be invoked, contradicting the claimed uniform choice among all
pool members. -/
theorem writeCallNeverReachesSecondMember :
    (wrapperInit (fun (n : ℕ) _ => n) 0 [1] "send_transaction"
      ethereumTransactionMethodNames).objects = [0] ∧
    wrapperCall (fun (n : ℕ) => n)
      (wrapperInit (fun (n : ℕ) _ => n) 0 [1] "send_transaction"
        ethereumTransactionMethodNames) 0 = CallResult.raw 0 ∧
    wrapperCall (fun (n : ℕ) => n)
      (wrapperInit (fun (n : ℕ) _ => n) 0 [1] "send_transaction"
        ethereumTransactionMethodNames) 1 = CallResult.raw 0 := by
  decide

/-- C5: `get()` returns the first result when every other member's result
is equal to it, and otherwise fails with details pairing the decimal
string of each positional index with that member's result; in particular
results 1000 and 999 give the details ("0", 1000), ("1", 999). -/
theorem wrapperGetSpec :
    (∀ (β : Type) [DecidableEq β] (first : β) (rest : List β),
        wrapperGet first rest =
          if ∀ x ∈ rest, first = x then Except.ok first
          else Except.error ((List.enum (first :: rest)).map
            (fun p => (Nat.repr p.1, p.2)))) ∧
    wrapperGet (1000 : ℤ) [1000] = Except.ok 1000 ∧
    wrapperGet (1000 : ℤ) [999] =
      Except.error [("0", 1000), ("1", 999)] := by
  refine ⟨?_, rfl, rfl⟩
  intro β _ first rest
  have hall : (rest.all (fun other => first = other)) = true ↔
      ∀ x ∈ rest, first = x := by
    simp [List.all_eq_true]
  by_cases h : ∀ x ∈ rest, first = x
  · rw [wrapperGet, if_pos (hall.mpr h), if_pos h]
  · rw [wrapperGet, if_neg (fun hc => h (hall.mp hc)), if_neg h]

/-- C10: construction succeeds exactly when the average block time is
positive, the required confirmations are non-negative, the transaction
network id (when given) is positive and the primary URL list is
non-empty; on success the given values are stored unchanged. -/
theorem blockchainUtilitiesInitSpec (urls fUrls : List String)
    (avg conf : ℤ) (netId : Option ℤ) (celery : Bool) :
    ((∃ st, blockchainUtilitiesInit urls fUrls avg conf netId celery =
        Except.ok st) ↔
      (0 < avg ∧ 0 ≤ conf ∧ (∀ i, netId = some i → 0 < i) ∧ urls ≠ [])) ∧
    (∀ st, blockchainUtilitiesInit urls fUrls avg conf netId celery =
        Except.ok st →
      st.averageBlockTime = avg ∧
      st.requiredTransactionConfirmations = conf ∧
      st.transactionNetworkId = netId ∧
      st.blockchainNodeUrls = urls ∧
      st.fallbackBlockchainNodeUrls = fUrls ∧
      st.defaultPrivateKey = none ∧ st.defaultAddress = none ∧
      st.celeryTasksEnabled = celery) := by
  have hmatch : ((match netId with
      | some i => decide (i ≤ 0)
      | none => false) = true) ↔ ∃ i, netId = some i ∧ i ≤ 0 := by
    cases netId <;> simp
  constructor
  · constructor
    · rintro ⟨st, hst⟩
      unfold blockchainUtilitiesInit at hst
      split_ifs at hst with h1 h2 h3 h4
      refine ⟨not_le.mp h1, not_lt.mp h2, ?_, ?_⟩
      · intro i hi
        by_contra hle
        exact h3 (hmatch.mpr ⟨i, hi, not_lt.mp hle⟩)
      · intro hnil
        exact h4 (by simp [hnil])
    · rintro ⟨h1, h2, h3, h4⟩
      refine ⟨{ averageBlockTime := avg,
                requiredTransactionConfirmations := conf,
                transactionNetworkId := netId,
                blockchainNodeUrls := urls,
                fallbackBlockchainNodeUrls := fUrls,
                defaultPrivateKey := none,
                defaultAddress := none,
                celeryTasksEnabled := celery }, ?_⟩
      unfold blockchainUtilitiesInit
      rw [if_neg (not_le.mpr h1), if_neg (not_lt.mpr h2),
        if_neg (by
          intro hc
          obtain ⟨i, hi, hle⟩ := hmatch.mp hc
          exact absurd (h3 i hi) (not_lt.mpr hle)),
        if_neg (by simpa using h4)]
  · intro st hst
    unfold blockchainUtilitiesInit at hst
    split_ifs at hst
    cases hst
    simp

/-- C10 witness: a concrete valid construction. -/
theorem blockchainUtilitiesInitSpec_witness :
    ∃ st, blockchainUtilitiesInit ["https://node.example"] [] 14 2 (some 1)
      false = Except.ok st :=
  (blockchainUtilitiesInitSpec ["https://node.example"] [] 14 2 (some 1)
    false).1.mpr
    ⟨by norm_num, by norm_num, by simp, by simp⟩

/-- A cache hit returns the cached value with no resource read. -/
lemma loadContractAbi_hit {Abi : Type}
    (resource : ContractAbi → SemVersion → Option Abi)
    {cache : List (ContractAbi × Abi)} {kind : ContractAbi}
    (version : SemVersion) {a : Abi}
    (h : abiCacheLookup kind cache = some a) :
    loadContractAbi resource cache kind version = (Except.ok a, cache, 0) := by
  unfold loadContractAbi
  rw [h]

/-- A cache miss with a successful resource read caches the value. -/
lemma loadContractAbi_miss_found {Abi : Type}
    {resource : ContractAbi → SemVersion → Option Abi}
    {cache : List (ContractAbi × Abi)} {kind : ContractAbi}
    {version : SemVersion} {a : Abi}
    (hl : abiCacheLookup kind cache = none)
    (hr : resource kind version = some a) :
    loadContractAbi resource cache kind version =
      (Except.ok a, (kind, a) :: cache, 1) := by
  unfold loadContractAbi
  rw [hl, hr]

/-- A cache miss with a failing resource read leaves the cache
unchanged. -/
lemma loadContractAbi_miss_absent {Abi : Type}
    {resource : ContractAbi → SemVersion → Option Abi}
    {cache : List (ContractAbi × Abi)} {kind : ContractAbi}
    {version : SemVersion}
    (hl : abiCacheLookup kind cache = none)
    (hr : resource kind version = none) :
    loadContractAbi resource cache kind version =
      (Except.error (), cache, 1) := by
  unfold loadContractAbi
  rw [hl, hr]

/-- A cached entry survives any later load (of any kind and version). -/
lemma abiCacheLookup_after_load {Abi : Type}
    (resource : ContractAbi → SemVersion → Option Abi)
    (cache : List (ContractAbi × Abi)) (kind kind2 : ContractAbi)
    (v3 : SemVersion) (a : Abi)
    (h : abiCacheLookup kind cache = some a) :
    abiCacheLookup kind (loadContractAbi resource cache kind2 v3).2.1 =
      some a := by
  cases hl2 : abiCacheLookup kind2 cache with
  | some b =>
    rw [loadContractAbi_hit resource v3 hl2]
    exact h
  | none =>
    cases hr : resource kind2 v3 with
    | some b =>
      rw [loadContractAbi_miss_found hl2 hr]
      have hne : ¬(kind2 = kind) := by
        intro he
        rw [he, h] at hl2
        cases hl2
      simp only [abiCacheLookup, if_neg hne]
      exact h
    | none =>
      rw [loadContractAbi_miss_absent hl2 hr]
      exact h

/-- C7: once a contract ABI kind has been loaded successfully, the load
performed at most one resource read, and every later load of the same
kind, with any version, returns the cached value equal to the first
result with zero resource reads; the cached entry also survives loads of
other kinds. -/
theorem loadContractAbiMemoized {Abi : Type}
    (resource : ContractAbi → SemVersion → Option Abi)
    (cache : List (ContractAbi × Abi)) (kind : ContractAbi)
    (v1 v2 : SemVersion) (a : Abi)
    (h : (loadContractAbi resource cache kind v1).1 = Except.ok a) :
    (loadContractAbi resource cache kind v1).2.2 ≤ 1 ∧
    abiCacheLookup kind (loadContractAbi resource cache kind v1).2.1 =
      some a ∧
    loadContractAbi resource (loadContractAbi resource cache kind v1).2.1
        kind v2 =
      (Except.ok a, (loadContractAbi resource cache kind v1).2.1, 0) ∧
    (∀ (kind2 : ContractAbi) (v3 : SemVersion),
      abiCacheLookup kind
        (loadContractAbi resource
          (loadContractAbi resource cache kind v1).2.1 kind2 v3).2.1 =
        some a) := by
  cases hl : abiCacheLookup kind cache with
  | some b =>
    have he : loadContractAbi resource cache kind v1 =
        (Except.ok b, cache, 0) := loadContractAbi_hit resource v1 hl
    rw [he] at h
    obtain rfl : a = b := (Except.ok.inj h).symm
    rw [he]
    refine ⟨by norm_num, hl, ?_, ?_⟩
    · exact loadContractAbi_hit resource v2 hl
    · intro kind2 v3
      exact abiCacheLookup_after_load resource cache kind kind2 v3 a hl
  | none =>
    cases hr : resource kind v1 with
    | some b =>
      have he : loadContractAbi resource cache kind v1 =
          (Except.ok b, (kind, b) :: cache, 1) :=
        loadContractAbi_miss_found hl hr
      rw [he] at h
      obtain rfl : a = b := (Except.ok.inj h).symm
      rw [he]
      have hc : abiCacheLookup kind ((kind, a) :: cache) = some a := by
        simp [abiCacheLookup]
      refine ⟨by norm_num, hc, ?_, ?_⟩
      · exact loadContractAbi_hit resource v2 hc
      · intro kind2 v3
        exact abiCacheLookup_after_load resource ((kind, a) :: cache) kind
          kind2 v3 a hc
    | none =>
      have he : loadContractAbi resource cache kind v1 =
          (Except.error (), cache, 1) := loadContractAbi_miss_absent hl hr
      rw [he] at h
      cases h

/-- C7 witness: a concrete load of the pantosHub ABI, then a reload with
a different version. -/
theorem loadContractAbiMemoized_witness :
    (loadContractAbi (fun _ _ => some 42)
      ([] : List (ContractAbi × ℕ)) ContractAbi.pantosHub
      ⟨1, 0, 0⟩).1 = Except.ok 42 ∧
    loadContractAbi (fun _ _ => some 42)
        (loadContractAbi (fun _ _ => some (42 : ℕ)) []
          ContractAbi.pantosHub ⟨1, 0, 0⟩).2.1 ContractAbi.pantosHub
        ⟨2, 0, 0⟩ =
      (Except.ok 42,
       (loadContractAbi (fun _ _ => some (42 : ℕ)) []
         ContractAbi.pantosHub ⟨1, 0, 0⟩).2.1, 0) :=
  ⟨rfl,
   (loadContractAbiMemoized (fun _ _ => some 42) [] ContractAbi.pantosHub
     ⟨1, 0, 0⟩ ⟨2, 0, 0⟩ 42 rfl).2.2.1⟩

/-- `listBeginsWith` holds exactly when the pattern is an initial
segment. -/
lemma listBeginsWith_iff (p l : List Char) :
    listBeginsWith p l = true ↔ ∃ t, l = p ++ t := by
  induction p generalizing l with
  | nil => simp [listBeginsWith]
  | cons c cs ih =>
    cases l with
    | nil => simp [listBeginsWith]
    | cons h hs =>
      simp only [listBeginsWith, Bool.and_eq_true, decide_eq_true_eq, ih,
        List.cons_append, List.cons.injEq]
      constructor
      · rintro ⟨rfl, t, rfl⟩
        exact ⟨t, rfl, rfl⟩
      · rintro ⟨t, rfl, rfl⟩
        exact ⟨rfl, t, rfl⟩

/-- `listHasSub` holds exactly when the pattern occurs contiguously. -/
lemma listHasSub_iff (p l : List Char) :
    listHasSub p l = true ↔ ∃ s t, l = s ++ p ++ t := by
  induction l with
  | nil =>
    constructor
    · intro hp
      refine ⟨[], [], ?_⟩
      have : p = [] := by simpa [listHasSub, List.isEmpty_iff] using hp
      simp [this]
    · rintro ⟨s, t, hst⟩
      have hs : s = [] ∧ p = [] ∧ t = [] := by
        simpa [List.append_eq_nil] using hst.symm
      simp [listHasSub, hs.2.1]
  | cons h t ih =>
    simp only [listHasSub, Bool.or_eq_true, listBeginsWith_iff, ih]
    constructor
    · rintro (⟨u, hu⟩ | ⟨s, u, hu⟩)
      · exact ⟨[], u, by simp [hu]⟩
      · exact ⟨h :: s, u, by simp [hu]⟩
    · rintro ⟨s, u, hu⟩
      cases s with
      | nil =>
        left
        exact ⟨u, by simpa using hu⟩
      | cons s0 ss =>
        right
        simp only [List.cons_append, List.cons.injEq] at hu
        exact ⟨ss, u, hu.2⟩

/-- `strContains` holds exactly when the pattern string occurs
contiguously in the message string. -/
lemma strContains_iff (message pat : String) :
    strContains message pat = true ↔
      ∃ s t, message.toList = s ++ pat.toList ++ t :=
  listHasSub_iff pat.toList message.toList

/-- C8: the send-error classification is by substring of the message:
any of the three nonce messages gives TransactionNonceTooLow (taking
precedence), otherwise the substring transaction underpriced gives
TransactionUnderpriced, and otherwise the chain-generic utilities error
is raised; with concrete instances of all three classes. -/
theorem classifySendRawErrorSpec :
    (∀ message : String,
        classifySendRawError message =
            SendRawErrorKind.transactionNonceTooLow ↔
          ∃ pat ∈ nonceTooLowMessages,
            ∃ s t, message.toList = s ++ pat.toList ++ t) ∧
    (∀ message : String,
        classifySendRawError message =
            SendRawErrorKind.transactionUnderpriced ↔
          ((¬∃ pat ∈ nonceTooLowMessages,
              ∃ s t, message.toList = s ++ pat.toList ++ t) ∧
            ∃ s t, message.toList =
              s ++ ("transaction underpriced").toList ++ t)) ∧
    (∀ message : String,
        classifySendRawError message = SendRawErrorKind.genericError ↔
          ((¬∃ pat ∈ nonceTooLowMessages,
              ∃ s t, message.toList = s ++ pat.toList ++ t) ∧
            ¬∃ s t, message.toList =
              s ++ ("transaction underpriced").toList ++ t)) ∧
    classifySendRawError "server error: nonce too low" =
      SendRawErrorKind.transactionNonceTooLow ∧
    classifySendRawError "replacement transaction underpriced" =
      SendRawErrorKind.transactionUnderpriced ∧
    classifySendRawError "execution reverted" =
      SendRawErrorKind.genericError := by
  have hany : ∀ m : String,
      (nonceTooLowMessages.any (fun pat => strContains m pat) = true) ↔
        ∃ pat ∈ nonceTooLowMessages,
          ∃ s t, m.toList = s ++ pat.toList ++ t := by
    intro m
    simp only [List.any_eq_true, strContains_iff]
  refine ⟨?_, ?_, ?_, by decide, by decide, by decide⟩
  · intro m
    unfold classifySendRawError
    split_ifs with h1 h2
    · exact iff_of_true rfl ((hany m).mp h1)
    · exact iff_of_false (by simp) (fun hc => h1 ((hany m).mpr hc))
    · exact iff_of_false (by simp) (fun hc => h1 ((hany m).mpr hc))
  · intro m
    unfold classifySendRawError
    split_ifs with h1 h2
    · exact iff_of_false (by simp)
        (fun ⟨hnot, _⟩ => hnot ((hany m).mp h1))
    · exact iff_of_true rfl
        ⟨fun hc => h1 ((hany m).mpr hc), (strContains_iff m _).mp h2⟩
    · exact iff_of_false (by simp)
        (fun ⟨_, hsub⟩ => h2 ((strContains_iff m _).mpr hsub))
  · intro m
    unfold classifySendRawError
    split_ifs with h1 h2
    · exact iff_of_false (by simp)
        (fun ⟨hnot, _⟩ => hnot ((hany m).mp h1))
    · exact iff_of_false (by simp)
        (fun ⟨_, hnot⟩ => hnot ((strContains_iff m _).mp h2))
    · exact iff_of_true rfl
        ⟨fun hc => h1 ((hany m).mpr hc),
         fun hc => h2 ((strContains_iff m _).mpr hc)⟩

/-- A URL found by `findLiveUrl` is a live member of the list. -/
lemma findLiveUrl_mem {live : String → Bool} :
    ∀ {fb : List String} {u : String}, findLiveUrl live fb = some u →
      u ∈ fb ∧ live u = true := by
  intro fb
  induction fb with
  | nil => intro u h; cases h
  | cons v rest ih =>
    intro u h
    by_cases hv : live v = true
    · rw [findLiveUrl, if_pos hv] at h
      cases h
      exact ⟨List.mem_cons_self v rest, hv⟩
    · rw [findLiveUrl, if_neg hv] at h
      obtain ⟨hm, hl⟩ := ih h
      exact ⟨List.mem_cons_of_mem v hm, hl⟩

/-- `findLiveUrl` fails exactly when no URL of the list is live. -/
lemma findLiveUrl_eq_none {live : String → Bool} :
    ∀ {fb : List String}, findLiveUrl live fb = none ↔
      ∀ u ∈ fb, live u = false := by
  intro fb
  induction fb with
  | nil => simp [findLiveUrl]
  | cons v rest ih =>
    by_cases hv : live v = true
    · simp [findLiveUrl, hv]
    · simp only [findLiveUrl, if_neg hv, ih, List.mem_cons]
      constructor
      · intro h u hu
        rcases hu with rfl | hu
        · exact Bool.eq_false_iff.mpr hv
        · exact h u hu
      · intro h u hu
        exact h u (Or.inr hu)

/-- Unfolding of pool construction when the current slot connects. -/
lemma createNodeConnections_cons_some {live : String → Bool}
    {p : String} {ps F : List String} {u : String} {F1 : List String}
    (hc : createValidNodeConnection live p F = some (u, F1)) :
    createNodeConnections live (p :: ps) F =
      match createNodeConnections live ps F1 with
      | Except.error e => Except.error e
      | Except.ok (pool, fbEnd) => Except.ok (u :: pool, fbEnd) := by
  rw [createNodeConnections, hc]

/-- Unfolding of pool construction when the current slot fails. -/
lemma createNodeConnections_cons_none {live : String → Bool}
    {p : String} {ps F : List String}
    (hc : createValidNodeConnection live p F = none) :
    createNodeConnections live (p :: ps) F = Except.error (p :: F) := by
  rw [createNodeConnections, hc]

/-- Success properties of pool construction: one member per primary,
where a slot keeps a live primary and otherwise holds a live fallback
drawn from the fallback list, and the consumed fallbacks together with
the final scratch list are a permutation of the original fallback list
(so no fallback occurrence is used twice). -/
lemma createNodeConnections_ok_props {live : String → Bool} :
    ∀ (P F pool fbEnd : List String),
      createNodeConnections live P F = Except.ok (pool, fbEnd) →
      pool.length = P.length ∧
      (∀ pr ∈ P.zip pool,
         (live pr.1 = true → pr.2 = pr.1) ∧
         (live pr.1 = false → pr.2 ∈ F ∧ live pr.2 = true)) ∧
      ∃ consumed : List String, F.Perm (consumed ++ fbEnd) ∧
        ∀ u ∈ consumed, live u = true ∧ u ∈ pool := by
  intro P
  induction P with
  | nil =>
    intro F pool fbEnd h
    rw [createNodeConnections] at h
    cases h
    exact ⟨rfl, by simp, ⟨[], by simp, by simp⟩⟩
  | cons p ps ih =>
    intro F pool fbEnd h
    cases hc : createValidNodeConnection live p F with
    | none =>
      rw [createNodeConnections_cons_none hc] at h
      cases h
    | some pair =>
      obtain ⟨u, F1⟩ := pair
      rw [createNodeConnections_cons_some hc] at h
      cases hrec : createNodeConnections live ps F1 with
      | error e => rw [hrec] at h; cases h
      | ok pr =>
        obtain ⟨pool1, fbEnd1⟩ := pr
        rw [hrec] at h
        cases h
        obtain ⟨ihlen, ihzip, consumed, ihperm, ihcons⟩ :=
          ih F1 pool1 fbEnd hrec
        by_cases hp : live p = true
        · have hpF : u = p ∧ F1 = F := by
            rw [createValidNodeConnection, if_pos hp] at hc
            cases hc
            exact ⟨rfl, rfl⟩
          obtain ⟨rfl, rfl⟩ := hpF
          refine ⟨by simpa using ihlen, ?_, consumed, ihperm, ?_⟩
          · intro pr2 hpr2
            rcases List.mem_cons.mp hpr2 with rfl | hpr2
            · exact ⟨fun _ => rfl, fun hfalse => by simp [hp] at hfalse⟩
            · exact ihzip pr2 hpr2
          · intro v hv
            obtain ⟨hl, hm⟩ := ihcons v hv
            exact ⟨hl, List.mem_cons_of_mem _ hm⟩
        · rw [createValidNodeConnection, if_neg hp] at hc
          cases hf : findLiveUrl live F with
          | none => rw [hf] at hc; cases hc
          | some w =>
            rw [hf] at hc
            cases hc
            obtain ⟨humem, hulive⟩ := findLiveUrl_mem hf
            refine ⟨by simpa using ihlen, ?_, u :: consumed, ?_, ?_⟩
            · intro pr2 hpr2
              rcases List.mem_cons.mp hpr2 with rfl | hpr2
              · exact ⟨fun htrue => absurd htrue hp,
                  fun _ => ⟨humem, hulive⟩⟩
              · obtain ⟨hzl, hzf⟩ := ihzip pr2 hpr2
                refine ⟨hzl, fun hfalse => ?_⟩
                obtain ⟨hmem, hlive⟩ := hzf hfalse
                exact ⟨(List.erase_sublist u F).subset hmem, hlive⟩
            · exact (List.perm_cons_erase humem).trans (ihperm.cons u)
            · intro v hv
              rcases List.mem_cons.mp hv with rfl | hv
              · exact ⟨hulive, List.mem_cons_self _ _⟩
              · obtain ⟨hl, hm⟩ := ihcons v hv
                exact ⟨hl, List.mem_cons_of_mem _ hm⟩

/-- After a successful slot, overall failure is failure of the rest. -/
lemma createNodeConnections_error_step {live : String → Bool}
    {p : String} {ps F : List String} {u : String} {F1 : List String}
    (hc : createValidNodeConnection live p F = some (u, F1)) :
    ((∃ e, createNodeConnections live (p :: ps) F = Except.error e) ↔
      ∃ e, createNodeConnections live ps F1 = Except.error e) := by
  rw [createNodeConnections_cons_some hc]
  cases hrec : createNodeConnections live ps F1 with
  | error e2 => simp
  | ok pr =>
    obtain ⟨pool1, fbEnd1⟩ := pr
    simp

/-- Pool construction fails exactly when the primaries that are not live
outnumber the live fallbacks. -/
lemma createNodeConnections_error_iff (live : String → Bool) :
    ∀ (P F : List String),
      (∃ e, createNodeConnections live P F = Except.error e) ↔
        F.countP live < P.countP (fun p => !live p) := by
  intro P
  induction P with
  | nil =>
    intro F
    simp [createNodeConnections]
  | cons p ps ih =>
    intro F
    by_cases hp : live p = true
    · have hc : createValidNodeConnection live p F = some (p, F) := by
        rw [createValidNodeConnection, if_pos hp]
      have hcount : (p :: ps).countP (fun q => !live q) =
          ps.countP (fun q => !live q) := by
        rw [List.countP_cons_of_neg]
        simp [hp]
      rw [hcount, createNodeConnections_error_step hc, ih F]
    · have hplow : live p = false := Bool.eq_false_iff.mpr hp
      have hcount : (p :: ps).countP (fun q => !live q) =
          ps.countP (fun q => !live q) + 1 := by
        rw [List.countP_cons_of_pos]
        simp [hplow]
      cases hf : findLiveUrl live F with
      | none =>
        have hzero : F.countP live = 0 := by
          rw [List.countP_eq_zero]
          intro v hv
          simp [findLiveUrl_eq_none.mp hf v hv]
        have hc : createValidNodeConnection live p F = none := by
          rw [createValidNodeConnection, if_neg hp, hf]
        rw [hcount, hzero]
        constructor
        · intro _
          exact Nat.succ_pos _
        · intro _
          exact ⟨p :: F, createNodeConnections_cons_none hc⟩
      | some u =>
        obtain ⟨humem, hulive⟩ := findLiveUrl_mem hf
        have hc : createValidNodeConnection live p F =
            some (u, F.erase u) := by
          rw [createValidNodeConnection, if_neg hp, hf]
        have hcountF : F.countP live = (F.erase u).countP live + 1 := by
          have hperm := List.perm_cons_erase humem
          rw [hperm.countP_eq live, List.countP_cons_of_pos]
          simpa using hulive
        rw [hcount, hcountF, createNodeConnections_error_step hc,
          ih (F.erase u)]
        omega

/-- The cannot-connect error carries the failing primary followed by the
remaining scratch fallbacks, none of which is live. -/
lemma createNodeConnections_error_payload {live : String → Bool} :
    ∀ (P F e : List String),
      createNodeConnections live P F = Except.error e →
      ∃ p s, e = p :: s ∧ p ∈ P ∧ live p = false ∧ s.Sublist F ∧
        ∀ u ∈ s, live u = false := by
  intro P
  induction P with
  | nil =>
    intro F e h
    rw [createNodeConnections] at h
    cases h
  | cons p ps ih =>
    intro F e h
    cases hc : createValidNodeConnection live p F with
    | none =>
      rw [createNodeConnections_cons_none hc] at h
      cases h
      rw [createValidNodeConnection] at hc
      by_cases hp : live p = true
      · rw [if_pos hp] at hc; cases hc
      · rw [if_neg hp] at hc
        cases hf : findLiveUrl live F with
        | some u => rw [hf] at hc; cases hc
        | none =>
          refine ⟨p, F, rfl, List.mem_cons_self _ _,
            Bool.eq_false_iff.mpr hp, List.Sublist.refl F,
            findLiveUrl_eq_none.mp hf⟩
    | some pair =>
      obtain ⟨u, F1⟩ := pair
      rw [createNodeConnections_cons_some hc] at h
      cases hrec : createNodeConnections live ps F1 with
      | ok pr =>
        obtain ⟨pool1, fbEnd1⟩ := pr
        rw [hrec] at h
        cases h
      | error e2 =>
        rw [hrec] at h
        cases h
        obtain ⟨q, s, rfl, hmem, hlow, hsub, hdead⟩ := ih F1 e hrec
        have hsubF : F1.Sublist F := by
          rw [createValidNodeConnection] at hc
          by_cases hp : live p = true
          · rw [if_pos hp] at hc
            cases hc
            exact List.Sublist.refl F
          · rw [if_neg hp] at hc
            cases hf : findLiveUrl live F with
            | none => rw [hf] at hc; cases hc
            | some w =>
              rw [hf] at hc
              cases hc
              exact List.erase_sublist u F
        exact ⟨q, s, rfl, List.mem_cons_of_mem _ hmem, hlow,
          hsub.trans hsubF, hdead⟩

/-- `findLiveUrl` returns exactly the first live URL in list order:
everything before it in the list is dead. -/
lemma findLiveUrl_eq_some_iff (live : String → Bool) :
    ∀ (fb : List String) (u : String),
      findLiveUrl live fb = some u ↔
        ∃ pre post, fb = pre ++ u :: post ∧
          (∀ v ∈ pre, live v = false) ∧ live u = true := by
  intro fb
  induction fb with
  | nil =>
    intro u
    constructor
    · intro h
      cases h
    · rintro ⟨pre, post, heq, -, -⟩
      cases pre <;> cases heq
  | cons v rest ih =>
    intro u
    by_cases hv : live v = true
    · rw [findLiveUrl, if_pos hv]
      constructor
      · intro h
        cases h
        exact ⟨[], rest, rfl, by simp, hv⟩
      · rintro ⟨pre, post, heq, hdead, hu⟩
        cases pre with
        | nil =>
          simp only [List.nil_append, List.cons.injEq] at heq
          rw [heq.1]
        | cons q qs =>
          simp only [List.cons_append, List.cons.injEq] at heq
          have hq : live v = false := heq.1 ▸ hdead q (List.mem_cons_self q qs)
          rw [hq] at hv
          cases hv
    · rw [findLiveUrl, if_neg hv, ih u]
      constructor
      · rintro ⟨pre, post, heq, hdead, hu⟩
        refine ⟨v :: pre, post, by rw [heq, List.cons_append], ?_, hu⟩
        intro w hw
        rcases List.mem_cons.mp hw with rfl | hw
        · exact Bool.eq_false_iff.mpr hv
        · exact hdead w hw
      · rintro ⟨pre, post, heq, hdead, hu⟩
        cases pre with
        | nil =>
          simp only [List.nil_append, List.cons.injEq] at heq
          rw [← heq.1] at hu
          exact absurd hu hv
        | cons q qs =>
          simp only [List.cons_append, List.cons.injEq] at heq
          exact ⟨qs, post, heq.2, fun w hw =>
            hdead w (List.mem_cons_of_mem q hw), hu⟩

/-- Erasing the first live URL from a dead-prefix decomposition removes
exactly that occurrence. -/
lemma erase_append_of_dead {live : String → Bool} {pre post : List String}
    {u : String} (hdead : ∀ v ∈ pre, live v = false)
    (hu : live u = true) :
    (pre ++ u :: post).erase u = pre ++ post := by
  have hnotin : u ∉ pre := by
    intro hin
    rw [hdead u hin] at hu
    cases hu
  rw [List.erase_append_right _ hnotin, List.erase_cons_head]

/-- Declarative statement of the pool-construction algorithm
(transcribed from the specification): each slot keeps a live primary,
and for a dead primary takes the FIRST live URL of the current scratch
list tried in order (every scratch entry before it is dead), which is
removed from the scratch list for the later slots; the final scratch
list is what remains at the end. -/
def poolConstructionSpec (live : String → Bool) :
    List String → List String → List String → List String → Prop
  | [], scratch, pool, scratchEnd => pool = [] ∧ scratchEnd = scratch
  | p :: ps, scratch, pool, scratchEnd =>
    match pool with
    | [] => False
    | u :: pool2 =>
      (live p = true ∧ u = p ∧
        poolConstructionSpec live ps scratch pool2 scratchEnd) ∨
      (live p = false ∧ live u = true ∧
        ∃ pre post, scratch = pre ++ u :: post ∧
          (∀ v ∈ pre, live v = false) ∧
          poolConstructionSpec live ps (pre ++ post) pool2 scratchEnd)

/-- The source's pool construction succeeds with a given pool and final
scratch list exactly when the declarative first-live-fallback
specification holds for them. -/
lemma createNodeConnections_ok_iff_spec {live : String → Bool} :
    ∀ (P F pool fbEnd : List String),
      createNodeConnections live P F = Except.ok (pool, fbEnd) ↔
        poolConstructionSpec live P F pool fbEnd := by
  intro P
  induction P with
  | nil =>
    intro F pool fbEnd
    rw [createNodeConnections]
    constructor
    · intro h
      cases h
      simp [poolConstructionSpec]
    · intro hs
      obtain ⟨rfl, rfl⟩ := hs
      rfl
  | cons p ps ih =>
    intro F pool fbEnd
    by_cases hp : live p = true
    · have hc : createValidNodeConnection live p F = some (p, F) := by
        rw [createValidNodeConnection, if_pos hp]
      rw [createNodeConnections_cons_some hc]
      constructor
      · intro h
        cases hrec : createNodeConnections live ps F with
        | error e =>
          rw [hrec] at h
          cases h
        | ok pr =>
          obtain ⟨pool1, fb1⟩ := pr
          rw [hrec] at h
          cases h
          simp only [poolConstructionSpec]
          exact Or.inl ⟨hp, trivial, (ih F pool1 fbEnd).mp hrec⟩
      · intro hs
        cases pool with
        | nil => simp [poolConstructionSpec] at hs
        | cons u pool2 =>
          simp only [poolConstructionSpec] at hs
          rcases hs with ⟨-, rfl, hrec⟩ | ⟨hpf, -, -⟩
          · rw [(ih F pool2 fbEnd).mpr hrec]
          · rw [hp] at hpf
            cases hpf
    · have hplow : live p = false := Bool.eq_false_iff.mpr hp
      cases hf : findLiveUrl live F with
      | none =>
        have hc : createValidNodeConnection live p F = none := by
          rw [createValidNodeConnection, if_neg hp, hf]
        rw [createNodeConnections_cons_none hc]
        constructor
        · intro h
          cases h
        · intro hs
          cases pool with
          | nil => simp [poolConstructionSpec] at hs
          | cons u pool2 =>
            simp only [poolConstructionSpec] at hs
            rcases hs with ⟨hpt, -, -⟩ | ⟨-, hu, pre, post, heq, hdead, -⟩
            · rw [hpt] at hplow
              cases hplow
            · have hfu : findLiveUrl live F = some u :=
                (findLiveUrl_eq_some_iff live F u).mpr
                  ⟨pre, post, heq, hdead, hu⟩
              rw [hf] at hfu
              cases hfu
      | some u0 =>
        have hc : createValidNodeConnection live p F =
            some (u0, F.erase u0) := by
          rw [createValidNodeConnection, if_neg hp, hf]
        rw [createNodeConnections_cons_some hc]
        constructor
        · intro h
          obtain ⟨pre0, post0, heq0, hdead0, hu0⟩ :=
            (findLiveUrl_eq_some_iff live F u0).mp hf
          have herase : F.erase u0 = pre0 ++ post0 := by
            rw [heq0]
            exact erase_append_of_dead hdead0 hu0
          cases hrec : createNodeConnections live ps (F.erase u0) with
          | error e =>
            rw [hrec] at h
            cases h
          | ok pr =>
            obtain ⟨pool1, fb1⟩ := pr
            rw [hrec] at h
            cases h
            simp only [poolConstructionSpec]
            refine Or.inr ⟨hplow, hu0, pre0, post0, heq0, hdead0, ?_⟩
            rw [← herase]
            exact (ih (F.erase u0) pool1 fbEnd).mp hrec
        · intro hs
          cases pool with
          | nil => simp [poolConstructionSpec] at hs
          | cons u pool2 =>
            simp only [poolConstructionSpec] at hs
            rcases hs with ⟨hpt, -, -⟩ | ⟨-, hu, pre, post, heq, hdead, hrec⟩
            · rw [hpt] at hplow
              cases hplow
            · have hfu : findLiveUrl live F = some u :=
                (findLiveUrl_eq_some_iff live F u).mpr
                  ⟨pre, post, heq, hdead, hu⟩
              rw [hf] at hfu
              obtain rfl : u0 = u := Option.some.inj hfu
              have herase : F.erase u0 = pre ++ post := by
                rw [heq]
                exact erase_append_of_dead hdead hu
              rw [herase, (ih (pre ++ post) pool2 fbEnd).mpr hrec]

/-- C4: on success the pool has one member per primary URL; a slot keeps
a live primary and otherwise holds exactly the first live fallback of
the current scratch list tried in order (all earlier scratch entries
being dead), which is removed from the scratch list and never reused;
equivalently, success is characterized by the declarative
first-live-fallback specification `poolConstructionSpec`; construction
fails with an error carrying the attempted URLs exactly when the dead
primaries outnumber the live fallbacks, i.e. when for some primary
neither it nor any remaining fallback is live. -/
theorem createNodeConnectionsSpec (live : String → Bool)
    (P F : List String) :
    (∀ pool fbEnd,
       createNodeConnections live P F = Except.ok (pool, fbEnd) →
       pool.length = P.length ∧
       (∀ pr ∈ P.zip pool,
          (live pr.1 = true → pr.2 = pr.1) ∧
          (live pr.1 = false → pr.2 ∈ F ∧ live pr.2 = true)) ∧
       ∃ consumed : List String, F.Perm (consumed ++ fbEnd) ∧
         ∀ u ∈ consumed, live u = true ∧ u ∈ pool) ∧
    ((∃ e, createNodeConnections live P F = Except.error e) ↔
       F.countP live < P.countP (fun p => !live p)) ∧
    (∀ e, createNodeConnections live P F = Except.error e →
       ∃ p s, e = p :: s ∧ p ∈ P ∧ live p = false ∧ s.Sublist F ∧
         ∀ u ∈ s, live u = false) ∧
    (∀ pool fbEnd,
       createNodeConnections live P F = Except.ok (pool, fbEnd) ↔
         poolConstructionSpec live P F pool fbEnd) :=
  ⟨fun pool fbEnd h => createNodeConnections_ok_props P F pool fbEnd h,
   createNodeConnections_error_iff live P F,
   fun e h => createNodeConnections_error_payload P F e h,
   fun pool fbEnd => createNodeConnections_ok_iff_spec P F pool fbEnd⟩

/-- C4 witness: primaries p1 (dead) and p2 (live) with fallbacks f1, f2;
the pool is f1, p2 and the remaining scratch list is f2. -/
theorem createNodeConnectionsSpec_witness :
    createNodeConnections (fun u => u ≠ "p1") ["p1", "p2"] ["f1", "f2"] =
      Except.ok (["f1", "p2"], ["f2"]) ∧
    (["f1", "p2"] : List String).length = ["p1", "p2"].length :=
  ⟨by rfl,
   (((createNodeConnectionsSpec (fun u => u ≠ "p1") ["p1", "p2"]
     ["f1", "f2"]).1) ["f1", "p2"] ["f2"] (by rfl)).1⟩

/-- A concrete EIP-1559 submission request with tip 1e8 and a given
ceiling. -/
def sampleRequest (ceiling : Option ℤ) : TransactionSubmissionRequest :=
  { contractAddress := "0xcontract", functionSelector := "0xselector",
    gas := none, minAdaptableFeePerGas := 10 ^ 8,
    maxTotalFeePerGas := ceiling, amount := none, nonce := 0 }

/-- The conditions equivalent to all precondition checks passing. -/
lemma checkTransactionSubmissionRequest_none
    {request : TransactionSubmissionRequest}
    (h : checkTransactionSubmissionRequest request = none) :
    (∀ g, request.gas = some g → 21000 ≤ g) ∧
    0 ≤ request.minAdaptableFeePerGas ∧
    (∀ m, request.maxTotalFeePerGas = some m →
      request.minAdaptableFeePerGas ≤ m) ∧
    (∀ a, request.amount = some a → 0 ≤ a) ∧ 0 ≤ request.nonce := by
  unfold checkTransactionSubmissionRequest at h
  split_ifs at h with h1 h2 h3 h4 h5
  refine ⟨?_, not_lt.mp h2, ?_, ?_, not_lt.mp h5⟩
  · intro g hg
    rw [hg] at h1
    exact not_lt.mp (by simpa using h1)
  · intro m hm
    rw [hm] at h3
    exact not_lt.mp (by simpa using h3)
  · intro a ha
    rw [ha] at h4
    exact not_lt.mp (by simpa using h4)

/-- A fold of `min` over non-negative integers is non-negative. -/
lemma foldl_min_nonneg :
    ∀ (l : List ℤ) (a : ℤ), 0 ≤ a → (∀ b ∈ l, 0 ≤ b) →
      0 ≤ l.foldl min a := by
  intro l
  induction l with
  | nil => intro a ha _; exact ha
  | cons b t ih =>
    intro a ha hb
    simp only [List.foldl_cons]
    exact ih (min a b)
      (le_min ha (hb b (List.mem_cons_self b t)))
      (fun c hc => hb c (List.mem_cons_of_mem b hc))

/-- C2 counterexample: with base fee and tip both 1e8 and ceiling 1e8,
the submission engine does not raise MaxTotalFeePerGasExceeded as the
claim states (the precondition check only fires for a ceiling strictly
below the tip): the checks pass and the maximum fee is clamped to 1e8. -/
theorem assembleEip1559FeesCeilingEqualTip :
    assembleEip1559Fees (10 ^ 8) [] (sampleRequest (some (10 ^ 8))) =
      Except.ok
        ({ maxPriorityFeePerGas := 10 ^ 8, maxFeePerGas := 10 ^ 8 },
         10 ^ 8) := by
  rfl

/-- C2 (amended): for every request passing the precondition checks the
engine takes base as the minimum baseFeePerGas over the pool, the
request's min adaptable fee as tip, sets the maximum fee to 2*base + tip
clamped down to the ceiling when set and lower, and returns the tip as
adaptable fee; with non-negative base fees the ceiling-clamped maximum
fee stays between tip and ceiling; the MaxTotalFeePerGasExceeded check
error occurs exactly when the ceiling is strictly below the tip; and at
base = tip = 1e8: no ceiling gives max fee 3e8 and adaptable fee 1e8,
ceiling 2e8 clamps to 2e8, ceiling 1e8 clamps to 1e8 (no error), and
only a ceiling strictly below 1e8 raises the error. -/
theorem assembleEip1559FeesSpec :
    (∀ (baseFeeFirst : ℤ) (baseFeeRest : List ℤ)
       (request : TransactionSubmissionRequest),
       checkTransactionSubmissionRequest request = none →
       assembleEip1559Fees baseFeeFirst baseFeeRest request =
         Except.ok
           ({ maxPriorityFeePerGas := request.minAdaptableFeePerGas,
              maxFeePerGas :=
                (match request.maxTotalFeePerGas with
                 | some m =>
                   min m (2 * (baseFeeRest.foldl min baseFeeFirst) +
                     request.minAdaptableFeePerGas)
                 | none =>
                   2 * (baseFeeRest.foldl min baseFeeFirst) +
                     request.minAdaptableFeePerGas) },
            request.minAdaptableFeePerGas)) ∧
    (∀ (baseFeeFirst : ℤ) (baseFeeRest : List ℤ)
       (request : TransactionSubmissionRequest) (m : ℤ),
       checkTransactionSubmissionRequest request = none →
       request.maxTotalFeePerGas = some m →
       0 ≤ baseFeeFirst → (∀ b ∈ baseFeeRest, 0 ≤ b) →
       ∃ params adaptable,
         assembleEip1559Fees baseFeeFirst baseFeeRest request =
           Except.ok (params, adaptable) ∧
         adaptable = request.minAdaptableFeePerGas ∧
         request.minAdaptableFeePerGas ≤ params.maxFeePerGas ∧
         params.maxFeePerGas ≤ m) ∧
    (∀ request : TransactionSubmissionRequest,
       checkTransactionSubmissionRequest request =
           some SubmissionCheckError.maxTotalFeePerGasExceeded ↔
         ((∀ g, request.gas = some g → 21000 ≤ g) ∧
          0 ≤ request.minAdaptableFeePerGas ∧
          ∃ m, request.maxTotalFeePerGas = some m ∧
            m < request.minAdaptableFeePerGas)) ∧
    assembleEip1559Fees (10 ^ 8) [] (sampleRequest none) =
      Except.ok
        ({ maxPriorityFeePerGas := 10 ^ 8, maxFeePerGas := 3 * 10 ^ 8 },
         10 ^ 8) ∧
    assembleEip1559Fees (10 ^ 8) [] (sampleRequest (some (2 * 10 ^ 8))) =
      Except.ok
        ({ maxPriorityFeePerGas := 10 ^ 8, maxFeePerGas := 2 * 10 ^ 8 },
         10 ^ 8) ∧
    assembleEip1559Fees (10 ^ 8) [] (sampleRequest (some (10 ^ 8 - 1))) =
      Except.error SubmissionCheckError.maxTotalFeePerGasExceeded := by
  have hmain : ∀ (baseFeeFirst : ℤ) (baseFeeRest : List ℤ)
      (request : TransactionSubmissionRequest),
      checkTransactionSubmissionRequest request = none →
      assembleEip1559Fees baseFeeFirst baseFeeRest request =
        Except.ok
          ({ maxPriorityFeePerGas := request.minAdaptableFeePerGas,
             maxFeePerGas :=
               (match request.maxTotalFeePerGas with
                | some m =>
                  min m (2 * (baseFeeRest.foldl min baseFeeFirst) +
                    request.minAdaptableFeePerGas)
                | none =>
                  2 * (baseFeeRest.foldl min baseFeeFirst) +
                    request.minAdaptableFeePerGas) },
           request.minAdaptableFeePerGas) := by
    intro bf br request h
    unfold assembleEip1559Fees
    rw [h]
    unfold createTransactionParametersType2
    cases hm : request.maxTotalFeePerGas with
    | none => simp [hm]
    | some m =>
      simp only [hm]
      have hmin : (if m < 2 * (br.foldl min bf) +
            request.minAdaptableFeePerGas then m
          else 2 * (br.foldl min bf) + request.minAdaptableFeePerGas) =
          min m (2 * (br.foldl min bf) +
            request.minAdaptableFeePerGas) := by
        rcases lt_or_le m (2 * (br.foldl min bf) +
            request.minAdaptableFeePerGas) with hlt | hle
        · rw [if_pos hlt, min_eq_left hlt.le]
        · rw [if_neg (not_lt.mpr hle), min_eq_right hle]
      rw [hmin]
  refine ⟨hmain, ?_, ?_, by rfl, by rfl, by rfl⟩
  · intro bf br request m h hm hbf hbr
    obtain ⟨-, htip, hceil, -, -⟩ :=
      checkTransactionSubmissionRequest_none h
    refine ⟨_, _, hmain bf br request h, rfl, ?_, ?_⟩
    · simp only [hm]
      refine le_min (hceil m hm) ?_
      have hb := foldl_min_nonneg br bf hbf hbr
      omega
    · simp only [hm]
      exact min_le_left _ _
  · intro request
    constructor
    · intro h
      unfold checkTransactionSubmissionRequest at h
      split_ifs at h with h1 h2 h3 h4 h5
      · cases h
      · cases h
      · refine ⟨?_, not_lt.mp h2, ?_⟩
        · intro g hg
          rw [hg] at h1
          exact not_lt.mp (by simpa using h1)
        · cases hm : request.maxTotalFeePerGas with
          | none => rw [hm] at h3; cases h3
          | some m =>
            rw [hm] at h3
            exact ⟨m, rfl, by simpa using h3⟩
      · cases h
      · cases h
    · rintro ⟨hg, hmin, m, hm, hlt⟩
      unfold checkTransactionSubmissionRequest
      rw [if_neg, if_neg (not_lt.mpr hmin), if_pos]
      · rw [hm]
        simpa using hlt
      · intro hc
        cases hgc : request.gas with
        | none => rw [hgc] at hc; cases hc
        | some g =>
          rw [hgc] at hc
          exact absurd (hg g hgc) (not_le.mpr (by simpa using hc))

/-- C2 witness: the amended fee formula evaluated at base = tip = 1e8
with no ceiling. -/
theorem assembleEip1559FeesSpec_witness :
    checkTransactionSubmissionRequest (sampleRequest none) = none ∧
    assembleEip1559Fees (10 ^ 8) [] (sampleRequest none) =
      Except.ok
        ({ maxPriorityFeePerGas := 10 ^ 8, maxFeePerGas := 300000000 },
         10 ^ 8) :=
  ⟨rfl, assembleEip1559FeesSpec.1 (10 ^ 8) [] (sampleRequest none) rfl⟩

/-- The bumped fee is at least 1. -/
lemma one_le_bumpFee (factor : ℚ) (prev : ℕ) : 1 ≤ bumpFee factor prev :=
  le_max_left 1 _

/-- With a factor above 1 the bump strictly increases the fee. -/
lemma lt_bumpFee (factor : ℚ) (hf : 1 < factor) (prev : ℕ) :
    prev < bumpFee factor prev := by
  unfold bumpFee
  rcases Nat.eq_zero_or_pos prev with rfl | hp
  · simp
  · have h1 : (prev : ℚ) < (prev : ℚ) * factor := by
      have hp0 : (0 : ℚ) < (prev : ℚ) := by exact_mod_cast hp
      nlinarith
  -- prev < ceil(prev * factor) as integers, then as naturals
    have h2 : (prev : ℤ) < Int.ceil ((prev : ℚ) * factor) := by
      rw [Int.lt_ceil]
      exact_mod_cast h1
    have h3 : prev < (Int.ceil ((prev : ℚ) * factor)).toNat := by
      rw [Int.lt_toNat]
      exact h2
    exact lt_of_lt_of_le h3 (le_max_right 1 _)

/-- The bump dominates multiplication by the factor (over the
rationals). -/
lemma mul_factor_le_bumpFee (factor : ℚ) (hf : 0 ≤ factor) (n : ℕ) :
    (n : ℚ) * factor ≤ (bumpFee factor n : ℚ) := by
  unfold bumpFee
  have h0 : (0 : ℚ) ≤ (n : ℚ) * factor := mul_nonneg (by positivity) hf
  have hceil0 : 0 ≤ Int.ceil ((n : ℚ) * factor) := Int.ceil_nonneg h0
  have hcast : (((Int.ceil ((n : ℚ) * factor)).toNat : ℕ) : ℚ) =
      ((Int.ceil ((n : ℚ) * factor) : ℤ) : ℚ) := by
    exact_mod_cast congrArg (fun z : ℤ => (z : ℚ))
      (Int.toNat_of_nonneg hceil0)
  calc (n : ℚ) * factor ≤ ((Int.ceil ((n : ℚ) * factor) : ℤ) : ℚ) :=
        Int.le_ceil _
    _ = (((Int.ceil ((n : ℚ) * factor)).toNat : ℕ) : ℚ) := hcast.symm
    _ ≤ ((max 1 (Int.ceil ((n : ℚ) * factor)).toNat : ℕ) : ℚ) := by
        exact_mod_cast le_max_right 1 _

/-- The bump dominates the floor `max 1 prev`. -/
lemma max_one_le_bumpFee (factor : ℚ) (hf : 1 ≤ factor) (prev : ℕ) :
    max 1 prev ≤ bumpFee factor prev := by
  unfold bumpFee
  refine max_le_max (le_refl 1) ?_
  have h1 : (prev : ℚ) ≤ (prev : ℚ) * factor :=
    le_mul_of_one_le_right (by positivity) hf
  have h2 : (prev : ℤ) ≤ Int.ceil ((prev : ℚ) * factor) := by
    rw [Int.le_ceil_iff]
    push_cast
    linarith
  calc prev = ((prev : ℤ)).toNat := by simp
    _ ≤ (Int.ceil ((prev : ℚ) * factor)).toNat := Int.toNat_le_toNat h2

/-- Restarting the fee sequence after one bump shifts the index. -/
lemma feeSeq_shift (factor : ℚ) (prev : ℕ) :
    ∀ k, feeSeq factor (bumpFee factor prev) k = feeSeq factor prev (k + 1)
  | 0 => rfl
  | k + 1 => by
    show bumpFee factor (feeSeq factor (bumpFee factor prev) k) =
      feeSeq factor prev (k + 2)
    rw [feeSeq_shift factor prev k]
    rfl

/-- Geometric lower bound: after k+1 bumps the fee is at least
`max 1 prev` times the factor to the k. -/
lemma feeSeq_ge_geometric (factor : ℚ) (hf : 1 ≤ factor) (prev : ℕ) :
    ∀ k : ℕ, ((max 1 prev : ℕ) : ℚ) * factor ^ k ≤
      (feeSeq factor prev (k + 1) : ℚ) := by
  intro k
  induction k with
  | zero =>
    simp only [pow_zero, mul_one]
    exact_mod_cast max_one_le_bumpFee factor hf prev
  | succ k ih =>
    have hstep : (feeSeq factor prev (k + 1) : ℚ) * factor ≤
        (feeSeq factor prev (k + 2) : ℚ) :=
      mul_factor_le_bumpFee factor (le_trans zero_le_one hf) _
    calc ((max 1 prev : ℕ) : ℚ) * factor ^ (k + 1)
        = (((max 1 prev : ℕ) : ℚ) * factor ^ k) * factor := by ring
      _ ≤ (feeSeq factor prev (k + 1) : ℚ) * factor :=
          mul_le_mul_of_nonneg_right ih (le_trans zero_le_one hf)
      _ ≤ (feeSeq factor prev (k + 2) : ℚ) := hstep

/-- The ceiling test for a set ceiling. -/
lemma ceilingExceeded_some (c n : ℕ) :
    ceilingExceeded (some c) n = true ↔ c < n := by
  simp [ceilingExceeded]

/-- Loop unfolding when the bumped fee exceeds the ceiling. -/
lemma resubmitLoop_succ_exceeded (factor : ℚ) (mc : Option ℕ)
    (submit : ℕ → SubmitOutcome) (fuel prev i : ℕ)
    (hb : ceilingExceeded mc (bumpFee factor prev) = true) :
    resubmitLoop factor mc submit (fuel + 1) prev i =
      (ResubmitOutcome.maxTotalFeePerGasExceeded, []) := by
  rw [resubmitLoop, hb]
  simp

/-- Loop unfolding when the bumped fee is within the ceiling. -/
lemma resubmitLoop_succ_not_exceeded (factor : ℚ) (mc : Option ℕ)
    (submit : ℕ → SubmitOutcome) (fuel prev i : ℕ)
    (hb : ceilingExceeded mc (bumpFee factor prev) = false) :
    resubmitLoop factor mc submit (fuel + 1) prev i =
      match submit i with
      | SubmitOutcome.underpriced =>
        ((resubmitLoop factor mc submit fuel (bumpFee factor prev)
            (i + 1)).1,
         bumpFee factor prev ::
           (resubmitLoop factor mc submit fuel (bumpFee factor prev)
             (i + 1)).2)
      | SubmitOutcome.success r =>
        (ResubmitOutcome.response r, [bumpFee factor prev])
      | SubmitOutcome.failure m =>
        (ResubmitOutcome.submitFailure m, [bumpFee factor prev]) := by
  rw [resubmitLoop, hb]
  simp

/-- Every fee actually submitted by the loop respects a set ceiling. -/
lemma resubmitLoop_trace_le (factor : ℚ) (c : ℕ)
    (submit : ℕ → SubmitOutcome) :
    ∀ (fuel prev i fee : ℕ),
      fee ∈ (resubmitLoop factor (some c) submit fuel prev i).2 →
      fee ≤ c := by
  intro fuel
  induction fuel with
  | zero =>
    intro prev i fee hf
    simp [resubmitLoop] at hf
  | succ fuel ih =>
    intro prev i fee hf
    by_cases hb : c < bumpFee factor prev
    · rw [resubmitLoop_succ_exceeded factor (some c) submit fuel prev i
        ((ceilingExceeded_some c _).mpr hb)] at hf
      simp at hf
    · have hble : ceilingExceeded (some c) (bumpFee factor prev) = false :=
        Bool.eq_false_iff.mpr
          (fun hc => hb ((ceilingExceeded_some c _).mp hc))
      rw [resubmitLoop_succ_not_exceeded factor (some c) submit fuel prev i
        hble] at hf
      cases ho : submit i with
      | underpriced =>
        rw [ho] at hf
        simp only [List.mem_cons] at hf
        rcases hf with rfl | hf2
        · exact not_lt.mp hb
        · exact ih (bumpFee factor prev) (i + 1) fee hf2
      | success r =>
        rw [ho] at hf
        simp only [List.mem_singleton] at hf
        exact hf ▸ not_lt.mp hb
      | failure m =>
        rw [ho] at hf
        simp only [List.mem_singleton] at hf
        exact hf ▸ not_lt.mp hb

/-- The fees submitted by the loop are exactly the consecutive values of
the fee sequence. -/
lemma resubmitLoop_trace_eq (factor : ℚ) (mc : Option ℕ)
    (submit : ℕ → SubmitOutcome) :
    ∀ (fuel prev i : ℕ),
      (resubmitLoop factor mc submit fuel prev i).2 =
        (List.range
          (resubmitLoop factor mc submit fuel prev i).2.length).map
          (fun k => feeSeq factor prev (k + 1)) := by
  intro fuel
  induction fuel with
  | zero =>
    intro prev i
    simp [resubmitLoop]
  | succ fuel ih =>
    intro prev i
    by_cases hb : ceilingExceeded mc (bumpFee factor prev) = true
    · rw [resubmitLoop_succ_exceeded factor mc submit fuel prev i hb]
      simp
    · rw [resubmitLoop_succ_not_exceeded factor mc submit fuel prev i
        (Bool.eq_false_iff.mpr hb)]
      cases ho : submit i with
      | underpriced =>
        simp only []
        have ihs := ih (bumpFee factor prev) (i + 1)
        have hfun : (fun k => feeSeq factor (bumpFee factor prev) (k + 1)) =
            (fun k => feeSeq factor prev (k + 1)) ∘ Nat.succ := by
          funext k
          simp only [Function.comp]
          rw [feeSeq_shift]
        rw [List.length_cons, List.range_succ_eq_map, List.map_cons,
          List.map_map]
        have hhead : bumpFee factor prev = feeSeq factor prev (0 + 1) := rfl
        rw [← hfun, ← ihs, ← hhead]
      | success r =>
        rfl
      | failure m =>
        rfl

/-- Loop unfolding for an underpriced submission within the ceiling. -/
lemma resubmitLoop_succ_underpriced (factor : ℚ) (mc : Option ℕ)
    (submit : ℕ → SubmitOutcome) (fuel prev i : ℕ)
    (hb : ceilingExceeded mc (bumpFee factor prev) = false)
    (ho : submit i = SubmitOutcome.underpriced) :
    resubmitLoop factor mc submit (fuel + 1) prev i =
      ((resubmitLoop factor mc submit fuel (bumpFee factor prev)
          (i + 1)).1,
       bumpFee factor prev ::
         (resubmitLoop factor mc submit fuel (bumpFee factor prev)
           (i + 1)).2) := by
  rw [resubmitLoop_succ_not_exceeded factor mc submit fuel prev i hb, ho]

/-- Loop unfolding for a successful submission within the ceiling. -/
lemma resubmitLoop_succ_success (factor : ℚ) (mc : Option ℕ)
    (submit : ℕ → SubmitOutcome) (fuel prev i : ℕ)
    (r : TransactionSubmissionResponse)
    (hb : ceilingExceeded mc (bumpFee factor prev) = false)
    (ho : submit i = SubmitOutcome.success r) :
    resubmitLoop factor mc submit (fuel + 1) prev i =
      (ResubmitOutcome.response r, [bumpFee factor prev]) := by
  rw [resubmitLoop_succ_not_exceeded factor mc submit fuel prev i hb, ho]

/-- Loop unfolding for a failing submission within the ceiling. -/
lemma resubmitLoop_succ_failure (factor : ℚ) (mc : Option ℕ)
    (submit : ℕ → SubmitOutcome) (fuel prev i : ℕ) (m : String)
    (hb : ceilingExceeded mc (bumpFee factor prev) = false)
    (ho : submit i = SubmitOutcome.failure m) :
    resubmitLoop factor mc submit (fuel + 1) prev i =
      (ResubmitOutcome.submitFailure m, [bumpFee factor prev]) := by
  rw [resubmitLoop_succ_not_exceeded factor mc submit fuel prev i hb, ho]

/-- When the loop ends with MaxTotalFeePerGasExceeded, the fee that
triggered the error (the bump after all submitted fees) exceeds the
ceiling, and every earlier submission was underpriced. -/
lemma resubmitLoop_maxExceeded (factor : ℚ) (c : ℕ)
    (submit : ℕ → SubmitOutcome) :
    ∀ (fuel prev i : ℕ),
      (resubmitLoop factor (some c) submit fuel prev i).1 =
        ResubmitOutcome.maxTotalFeePerGasExceeded →
      c < feeSeq factor prev
          ((resubmitLoop factor (some c) submit fuel prev i).2.length +
            1) ∧
      ∀ j < (resubmitLoop factor (some c) submit fuel prev i).2.length,
        submit (i + j) = SubmitOutcome.underpriced := by
  intro fuel
  induction fuel with
  | zero =>
    intro prev i h
    rw [resubmitLoop] at h
    cases h
  | succ fuel ih =>
    intro prev i h
    by_cases hb : c < bumpFee factor prev
    · rw [resubmitLoop_succ_exceeded factor (some c) submit fuel prev i
        ((ceilingExceeded_some c _).mpr hb)]
      refine ⟨by simpa using hb, ?_⟩
      intro j hj
      simp at hj
    · have hble : ceilingExceeded (some c) (bumpFee factor prev) = false :=
        Bool.eq_false_iff.mpr
          (fun hc => hb ((ceilingExceeded_some c _).mp hc))
      cases ho : submit i with
      | underpriced =>
        rw [resubmitLoop_succ_underpriced factor (some c) submit fuel prev
          i hble ho] at h ⊢
        obtain ⟨ih1, ih2⟩ := ih (bumpFee factor prev) (i + 1) h
        constructor
        · dsimp only
          rw [List.length_cons]
          rw [feeSeq_shift] at ih1
          exact ih1
        · dsimp only
          intro j hj
          rw [List.length_cons] at hj
          cases j with
          | zero => simpa using ho
          | succ j2 =>
            have hx := ih2 j2 (by omega)
            have harith : i + 1 + j2 = i + (j2 + 1) := by omega
            rwa [harith] at hx
      | success r =>
        rw [resubmitLoop_succ_success factor (some c) submit fuel prev i r
          hble ho] at h
        cases h
      | failure m =>
        rw [resubmitLoop_succ_failure factor (some c) submit fuel prev i m
          hble ho] at h
        cases h

/-- A loop result of response or failure reflects the first
non-underpriced submission outcome. -/
lemma resubmitLoop_result_submit (factor : ℚ) (mc : Option ℕ)
    (submit : ℕ → SubmitOutcome) :
    ∀ (fuel prev i : ℕ),
      (∀ r, (resubmitLoop factor mc submit fuel prev i).1 =
          ResubmitOutcome.response r →
        ∃ k, k < fuel ∧ submit (i + k) = SubmitOutcome.success r ∧
          ∀ j < k, submit (i + j) = SubmitOutcome.underpriced) ∧
      (∀ m, (resubmitLoop factor mc submit fuel prev i).1 =
          ResubmitOutcome.submitFailure m →
        ∃ k, k < fuel ∧ submit (i + k) = SubmitOutcome.failure m ∧
          ∀ j < k, submit (i + j) = SubmitOutcome.underpriced) := by
  intro fuel
  induction fuel with
  | zero =>
    intro prev i
    constructor
    · intro r h
      rw [resubmitLoop] at h
      cases h
    · intro m h
      rw [resubmitLoop] at h
      cases h
  | succ fuel ih =>
    intro prev i
    by_cases hb : ceilingExceeded mc (bumpFee factor prev) = true
    · constructor
      · intro r h
        rw [resubmitLoop_succ_exceeded factor mc submit fuel prev i hb]
          at h
        cases h
      · intro m h
        rw [resubmitLoop_succ_exceeded factor mc submit fuel prev i hb]
          at h
        cases h
    · have hble := Bool.eq_false_iff.mpr hb
      constructor
      · intro r h
        cases ho : submit i with
        | underpriced =>
          rw [resubmitLoop_succ_underpriced factor mc submit fuel prev i
            hble ho] at h
          obtain ⟨k, hk, hks, hkj⟩ :=
            (ih (bumpFee factor prev) (i + 1)).1 r h
          refine ⟨k + 1, by omega, ?_, ?_⟩
          · have harith : i + (k + 1) = i + 1 + k := by omega
            rwa [harith]
          · intro j hj
            cases j with
            | zero => simpa using ho
            | succ j2 =>
              have hx := hkj j2 (by omega)
              have harith : i + 1 + j2 = i + (j2 + 1) := by omega
              rwa [harith] at hx
        | success r2 =>
          rw [resubmitLoop_succ_success factor mc submit fuel prev i r2
            hble ho] at h
          cases h
          exact ⟨0, by omega, by simpa using ho, by omega⟩
        | failure m2 =>
          rw [resubmitLoop_succ_failure factor mc submit fuel prev i m2
            hble ho] at h
          cases h
      · intro m h
        cases ho : submit i with
        | underpriced =>
          rw [resubmitLoop_succ_underpriced factor mc submit fuel prev i
            hble ho] at h
          obtain ⟨k, hk, hks, hkj⟩ :=
            (ih (bumpFee factor prev) (i + 1)).2 m h
          refine ⟨k + 1, by omega, ?_, ?_⟩
          · have harith : i + (k + 1) = i + 1 + k := by omega
            rwa [harith]
          · intro j hj
            cases j with
            | zero => simpa using ho
            | succ j2 =>
              have hx := hkj j2 (by omega)
              have harith : i + 1 + j2 = i + (j2 + 1) := by omega
              rwa [harith] at hx
        | success r2 =>
          rw [resubmitLoop_succ_success factor mc submit fuel prev i r2
            hble ho] at h
          cases h
        | failure m2 =>
          rw [resubmitLoop_succ_failure factor mc submit fuel prev i m2
            hble ho] at h
          cases h
          exact ⟨0, by omega, by simpa using ho, by omega⟩

/-- If some reachable fee exceeds the ceiling, the fuelled loop does not
run out of fuel. -/
lemma resubmitLoop_ne_outOfFuel (factor : ℚ) (c : ℕ)
    (submit : ℕ → SubmitOutcome) :
    ∀ (fuel prev i : ℕ),
      (∃ k, k < fuel ∧ c < feeSeq factor prev (k + 1)) →
      (resubmitLoop factor (some c) submit fuel prev i).1 ≠
        ResubmitOutcome.outOfFuel := by
  intro fuel
  induction fuel with
  | zero =>
    rintro prev i ⟨k, hk, -⟩
    exact absurd hk (Nat.not_lt_zero k)
  | succ fuel ih =>
    rintro prev i ⟨k, hk, hfee⟩
    by_cases hb : c < bumpFee factor prev
    · rw [resubmitLoop_succ_exceeded factor (some c) submit fuel prev i
        ((ceilingExceeded_some c _).mpr hb)]
      simp
    · have hble : ceilingExceeded (some c) (bumpFee factor prev) = false :=
        Bool.eq_false_iff.mpr
          (fun hc => hb ((ceilingExceeded_some c _).mp hc))
      cases ho : submit i with
      | underpriced =>
        rw [resubmitLoop_succ_underpriced factor (some c) submit fuel prev
          i hble ho]
        dsimp only
        have hk0 : k ≠ 0 := by
          rintro rfl
          exact hb (by simpa using hfee)
        refine ih (bumpFee factor prev) (i + 1) ⟨k - 1, by omega, ?_⟩
        rw [feeSeq_shift]
        have harith : k - 1 + 1 + 1 = k + 1 := by omega
        rw [harith]
        exact hfee
      | success r =>
        rw [resubmitLoop_succ_success factor (some c) submit fuel prev i r
          hble ho]
        simp
      | failure m =>
        rw [resubmitLoop_succ_failure factor (some c) submit fuel prev i m
          hble ho]
        simp

/-- Every fee after at least one bump is positive. -/
lemma one_le_feeSeq (factor : ℚ) (prev k : ℕ) :
    1 ≤ feeSeq factor prev (k + 1) :=
  one_le_bumpFee factor (feeSeq factor prev k)

/-- The ceiling is exceeded within `ceil(logb factor (c / max 1 prev)) + 1`
bumps. -/
lemma ceiling_lt_feeSeq_bound (factor : ℚ)
    (hf : (1101 / 1000 : ℚ) ≤ factor) (prev c : ℕ) :
    c < feeSeq factor prev
      ((Int.ceil (Real.logb ((factor : ℝ))
        ((c : ℝ) / ((max 1 prev : ℕ) : ℝ)))).toNat + 2) := by
  set B : ℕ := (Int.ceil (Real.logb ((factor : ℝ))
    ((c : ℝ) / ((max 1 prev : ℕ) : ℝ)))).toNat with hB
  rcases Nat.eq_zero_or_pos c with rfl | hc
  · exact lt_of_lt_of_le Nat.zero_lt_one (one_le_feeSeq factor prev (B + 1))
  · have hf1 : (1 : ℚ) < factor := lt_of_lt_of_le (by norm_num) hf
    have hfR : (1 : ℝ) < ((factor : ℚ) : ℝ) := by exact_mod_cast hf1
    have hm0 : 1 ≤ max 1 prev := le_max_left 1 prev
    have hm0R : (0 : ℝ) < ((max 1 prev : ℕ) : ℝ) := by
      exact_mod_cast lt_of_lt_of_le Nat.zero_lt_one hm0
    have hcR : (0 : ℝ) < (c : ℝ) := by exact_mod_cast hc
    have hx : (0 : ℝ) < (c : ℝ) / ((max 1 prev : ℕ) : ℝ) :=
      div_pos hcR hm0R
    have hlog : Real.logb ((factor : ℝ))
        ((c : ℝ) / ((max 1 prev : ℕ) : ℝ)) ≤ (B : ℝ) := by
      refine le_trans (Int.le_ceil _) ?_
      rw [hB]
      exact_mod_cast Int.self_le_toNat _
    have hkey : (c : ℝ) / ((max 1 prev : ℕ) : ℝ) <
        ((factor : ℝ)) ^ ((B + 1 : ℕ) : ℝ) := by
      have h1 : ((factor : ℝ)) ^ (Real.logb ((factor : ℝ))
          ((c : ℝ) / ((max 1 prev : ℕ) : ℝ))) =
          (c : ℝ) / ((max 1 prev : ℕ) : ℝ) :=
        Real.rpow_logb (lt_trans zero_lt_one hfR) (ne_of_gt hfR) hx
      rw [← h1]
      refine (Real.rpow_lt_rpow_left_iff hfR).mpr ?_
      refine lt_of_le_of_lt hlog ?_
      push_cast
      linarith
    have hkey2 : (c : ℝ) <
        ((max 1 prev : ℕ) : ℝ) * ((factor : ℝ)) ^ (B + 1 : ℕ) := by
      rw [div_lt_iff₀ hm0R] at hkey
      rw [Real.rpow_natCast] at hkey
      linarith [hkey]
    have hgeo : ((max 1 prev : ℕ) : ℚ) * factor ^ (B + 1) ≤
        (feeSeq factor prev (B + 2) : ℚ) :=
      feeSeq_ge_geometric factor (le_of_lt hf1) prev (B + 1)
    have hgeoR : ((max 1 prev : ℕ) : ℝ) * ((factor : ℝ)) ^ (B + 1 : ℕ) ≤
        ((feeSeq factor prev (B + 2) : ℕ) : ℝ) := by
      have := hgeo
      push_cast at this ⊢
      exact_mod_cast this
    have : (c : ℝ) < ((feeSeq factor prev (B + 2) : ℕ) : ℝ) :=
      lt_of_lt_of_le hkey2 hgeoR
    exact_mod_cast this

/-- C3 counterexample: with initial fee 0, factor 1.101 and ceiling 1,
the claimed bound of `ceil(log_f(ceiling / max(1, prev))) = 0` loop
iterations before returning or raising is violated: with fuel for the
claimed 0 iterations plus one terminal entry, the loop is still running,
because it performs one (underpriced) submission at fee 1 before the
bump to 2 exceeds the ceiling on the second entry. -/
theorem resubmitLoopBoundCounterexample :
    (Int.ceil (Real.logb (((1101 / 1000 : ℚ) : ℝ))
        ((1 : ℝ) / ((max 1 0 : ℕ) : ℝ)))).toNat = 0 ∧
    (resubmitLoop (1101 / 1000) (some 1)
        (fun _ => SubmitOutcome.underpriced) (0 + 1) 0 0).1 =
      ResubmitOutcome.outOfFuel := by
  constructor
  · have h1 : ((max 1 0 : ℕ) : ℝ) = 1 := by norm_num
    rw [h1, div_one, Real.logb_one]
    simp
  · have hb0 : bumpFee (1101 / 1000) 0 = 1 := by
      rw [bumpFee]
      norm_num
    have hble : ceilingExceeded (some 1) (bumpFee (1101 / 1000) 0) =
        false := by
      rw [hb0]
      rfl
    rw [resubmitLoop_succ_underpriced (1101 / 1000) (some 1)
      (fun _ => SubmitOutcome.underpriced) 0 0 0 hble rfl]
    rfl

/-- C3 (amended): for factor >= 1.101 the sequence of minimum adaptable
fees is strictly increasing, each new value is
max(1, ceil(previous * factor)) (the floor of 1 covers previous = 0),
every fee actually submitted respects a set ceiling, the fees submitted
across iterations are exactly the consecutive values of that sequence,
and with a set ceiling the loop reaches a terminal outcome within
ceil(log_factor(ceiling / max(1, prev))) + 1 iterations plus the
terminal entry (the claim's bound without the + 1 fails, see the
counterexample). -/
theorem resubmitTransactionMonotoneBounded (factor : ℚ)
    (hf : (1101 / 1000 : ℚ) ≤ factor) (prev c : ℕ)
    (submit : ℕ → SubmitOutcome) :
    (∀ k, feeSeq factor prev k < feeSeq factor prev (k + 1)) ∧
    (∀ k, feeSeq factor prev (k + 1) =
      max 1 (Int.ceil ((feeSeq factor prev k : ℚ) * factor)).toNat) ∧
    (∀ fuel i fee,
      fee ∈ (resubmitLoop factor (some c) submit fuel prev i).2 →
      fee ≤ c) ∧
    (∀ fuel i,
      (resubmitLoop factor (some c) submit fuel prev i).2 =
        (List.range
          (resubmitLoop factor (some c) submit fuel prev i).2.length).map
          (fun k => feeSeq factor prev (k + 1))) ∧
    (∀ i, (resubmitLoop factor (some c) submit
        ((Int.ceil (Real.logb ((factor : ℝ))
          ((c : ℝ) / ((max 1 prev : ℕ) : ℝ)))).toNat + 2) prev i).1 ≠
      ResubmitOutcome.outOfFuel) := by
  refine ⟨?_, ?_, ?_, ?_, ?_⟩
  · intro k
    exact lt_bumpFee factor (lt_of_lt_of_le (by norm_num) hf) _
  · intro k
    rfl
  · intro fuel i fee
    exact resubmitLoop_trace_le factor c submit fuel prev i fee
  · intro fuel i
    exact resubmitLoop_trace_eq factor (some c) submit fuel prev i
  · intro i
    refine resubmitLoop_ne_outOfFuel factor c submit _ prev i
      ⟨(Int.ceil (Real.logb ((factor : ℝ))
        ((c : ℝ) / ((max 1 prev : ℕ) : ℝ)))).toNat + 1, by omega, ?_⟩
    exact ceiling_lt_feeSeq_bound factor hf prev c

/-- C3 witness: factor 1.101, previous fee 5: the first bump strictly
increases the fee. -/
theorem resubmitTransactionMonotoneBounded_witness :
    (1101 / 1000 : ℚ) ≤ (1101 / 1000 : ℚ) ∧
    feeSeq (1101 / 1000) 5 0 < feeSeq (1101 / 1000) 5 1 :=
  ⟨le_refl _,
   (resubmitTransactionMonotoneBounded (1101 / 1000) (le_refl _) 5 1000
     (fun _ => SubmitOutcome.underpriced)).1 0⟩

/-- C6: when the loop ends with MaxTotalFeePerGasExceeded, every
submission it made used a fee within the ceiling (so the exceeding fee
was never submitted) and that exceeding fee is the bump following the
submitted ones, with every prior submission underpriced; a response is
exactly a success outcome of `submit_transaction` (carrying that
submission's transaction id and adaptable fee) after only underpriced
attempts; any other submission error propagates unchanged after only
underpriced attempts. -/
theorem resubmitLoopErrorHandling (factor : ℚ) (c prev i fuel : ℕ)
    (submit : ℕ → SubmitOutcome) :
    ((resubmitLoop factor (some c) submit fuel prev i).1 =
        ResubmitOutcome.maxTotalFeePerGasExceeded →
      (∀ fee ∈ (resubmitLoop factor (some c) submit fuel prev i).2,
        fee ≤ c) ∧
      c < feeSeq factor prev
        ((resubmitLoop factor (some c) submit fuel prev i).2.length +
          1) ∧
      ∀ j < (resubmitLoop factor (some c) submit fuel prev i).2.length,
        submit (i + j) = SubmitOutcome.underpriced) ∧
    (∀ r, (resubmitLoop factor (some c) submit fuel prev i).1 =
        ResubmitOutcome.response r →
      ∃ k, k < fuel ∧ submit (i + k) = SubmitOutcome.success r ∧
        ∀ j < k, submit (i + j) = SubmitOutcome.underpriced) ∧
    (∀ m, (resubmitLoop factor (some c) submit fuel prev i).1 =
        ResubmitOutcome.submitFailure m →
      ∃ k, k < fuel ∧ submit (i + k) = SubmitOutcome.failure m ∧
        ∀ j < k, submit (i + j) = SubmitOutcome.underpriced) := by
  refine ⟨?_,
    (resubmitLoop_result_submit factor (some c) submit fuel prev i).1,
    (resubmitLoop_result_submit factor (some c) submit fuel prev i).2⟩
  intro h
  obtain ⟨h1, h2⟩ := resubmitLoop_maxExceeded factor c submit fuel prev i h
  exact ⟨fun fee hf =>
    resubmitLoop_trace_le factor c submit fuel prev i fee hf, h1, h2⟩

/-- A concrete submission oracle: underpriced twice, then success. -/
def sampleSubmitOutcomes (k : ℕ) : SubmitOutcome :=
  if k < 2 then SubmitOutcome.underpriced
  else SubmitOutcome.success
    { transactionId := "0xhash", adaptableFeePerGas := 40 }

/-- The concrete loop run for the C6 witness. -/
lemma sampleResubmitRun :
    resubmitLoop 2 (some 1000) sampleSubmitOutcomes 10 5 0 =
      (ResubmitOutcome.response
        { transactionId := "0xhash", adaptableFeePerGas := 40 },
       [10, 20, 40]) := by
  have hb5 : bumpFee 2 5 = 10 := by
    rw [bumpFee, show ((5 : ℕ) : ℚ) * 2 = ((10 : ℕ) : ℚ) by norm_num,
      Int.ceil_natCast]
    rfl
  have hb10 : bumpFee 2 10 = 20 := by
    rw [bumpFee, show ((10 : ℕ) : ℚ) * 2 = ((20 : ℕ) : ℚ) by norm_num,
      Int.ceil_natCast]
    rfl
  have hb20 : bumpFee 2 20 = 40 := by
    rw [bumpFee, show ((20 : ℕ) : ℚ) * 2 = ((40 : ℕ) : ℚ) by norm_num,
      Int.ceil_natCast]
    rfl
  rw [show (10 : ℕ) = 9 + 1 from rfl,
    resubmitLoop_succ_underpriced 2 (some 1000) sampleSubmitOutcomes 9 5 0
      (by rw [hb5]; rfl) rfl, hb5]
  rw [show (9 : ℕ) = 8 + 1 from rfl,
    resubmitLoop_succ_underpriced 2 (some 1000) sampleSubmitOutcomes 8 10 1
      (by rw [hb10]; rfl) rfl, hb10]
  rw [show (8 : ℕ) = 7 + 1 from rfl,
    resubmitLoop_succ_success 2 (some 1000) sampleSubmitOutcomes 7 20 2
      { transactionId := "0xhash", adaptableFeePerGas := 40 }
      (by rw [hb20]; rfl) rfl, hb20]

/-- C6 witness: two underpriced submissions followed by a success; the
loop returns the submission response. -/
theorem resubmitLoopErrorHandling_witness :
    (resubmitLoop (2 : ℚ) (some 1000) sampleSubmitOutcomes 10 5 0).1 =
      ResubmitOutcome.response
        { transactionId := "0xhash", adaptableFeePerGas := 40 } ∧
    ∃ k, k < 10 ∧
      sampleSubmitOutcomes (0 + k) =
        SubmitOutcome.success
          { transactionId := "0xhash", adaptableFeePerGas := 40 } ∧
      ∀ j < k, sampleSubmitOutcomes (0 + j) = SubmitOutcome.underpriced :=
  ⟨by rw [sampleResubmitRun],
   (resubmitLoopErrorHandling (2 : ℚ) 1000 5 0 10 sampleSubmitOutcomes).2.1
     { transactionId := "0xhash", adaptableFeePerGas := 40 }
     (by rw [sampleResubmitRun])⟩

end PantosCommon
